import Mathlib

/-!
Verification of the evalscope evaluation pipeline
(`src/evalscope/evaluator/evaluator.py`) against its natural-language
specification.  The Python code is shallowly embedded: dicts become
association lists over a JSON-like value type, the prediction / review
jsonl files become lists of records, and the pluggable model / data
adapters become function-valued record fields.  Helpers that live in
other modules of the repository (`gen_hash`, `dict_torch_dtype_to_str`,
the jsonl io helpers, the key constants) are modelled from the spec, as
marked on each definition.
-/

namespace EvalscopeModel

/-- JSON-like values stored in the Python dicts handled by the evaluator.
`vdtype` stands for a framework dtype marker (e.g. `torch.float16`),
carrying the string name that `str()` would render it to. -/
inductive Val where
  | vstr (s : String)
  | vint (n : Int)
  | vbool (b : Bool)
  | vdtype (name : String)
  | vlist (xs : List Val)
  | vdict (d : List (String × Val))

/-- A Python dict with string keys, as an insertion-ordered association list.
Real dicts never repeat a key; theorems that depend on that carry a
`Nodup` hypothesis on the key list. -/
abbrev Dict := List (String × Val)

/-- Python `d[k]` read access (`None`-free: missing key is `none`, which in
the source raises `KeyError`). -/
def dictGet (d : Dict) (k : String) : Option Val :=
  (d.find? (fun kv => kv.1 == k)).map (fun kv => kv.2)

/-- Python `d[k] = v`: overwrite in place if the key exists (keeping its
position, as insertion-ordered dicts do), else append a new entry. -/
def dictSet (d : Dict) (k : String) (v : Val) : Dict :=
  if (dictGet d k).isSome then
    d.map (fun kv => if kv.1 = k then (k, v) else kv)
  else
    d ++ [(k, v)]

mutual
/-- Modelled from the spec: `dict_torch_dtype_to_str` normalization of one
value — "any framework-specific non-serializable value (e.g., numeric dtype
markers) must be normalized to its string name first". -/
def valNorm : Val → Val
  | .vdtype n => .vstr n
  | .vlist xs => .vlist (valNormList xs)
  | .vdict d => .vdict (valNormPairs d)
  | .vstr s => .vstr s
  | .vint n => .vint n
  | .vbool b => .vbool b

def valNormList : List Val → List Val
  | [] => []
  | v :: vs => valNorm v :: valNormList vs

def valNormPairs : List (String × Val) → List (String × Val)
  | [] => []
  | (k, v) :: ps => (k, valNorm v) :: valNormPairs ps
end

/-- Modelled from the spec: `dict_torch_dtype_to_str` applied to a dict
(normalizes the values, leaves the keys alone). -/
def dictNorm (d : Dict) : Dict := valNormPairs d

mutual
/-- `json.dumps` rendering of one value (`ensure_ascii=False`, default
separators).  String escaping is not modelled; an un-normalized dtype
marker renders to a distinctive non-JSON form standing for the
`TypeError` the real serializer would raise. -/
def dumpVal : Val → String
  | .vstr s => "\"" ++ s ++ "\""
  | .vint n => toString n
  | .vbool b => if b then "true" else "false"
  | .vdtype n => "<dtype " ++ n ++ ">"
  | .vlist xs => "[" ++ String.intercalate ", " (dumpValList xs) ++ "]"
  | .vdict d => "\x7b" ++ String.intercalate ", " (dumpPairList d) ++ "\x7d"

def dumpValList : List Val → List String
  | [] => []
  | v :: vs => dumpVal v :: dumpValList vs

def dumpPairList : List (String × Val) → List String
  | [] => []
  | (k, v) :: ps => ("\"" ++ k ++ "\": " ++ dumpVal v) :: dumpPairList ps
end

/-- `json.dumps` of an (ordered) dict: one object literal, entries in list
order. -/
def dumpDict (d : Dict) : String :=
  "\x7b" ++ String.intercalate ", " (dumpPairList d) ++ "\x7d"

/-- Comparison used by Python's `sorted(d.items())`: lexicographic on the
tuples, which on dicts (whose keys are distinct) is decided by the key. -/
def keyLe (a b : String × Val) : Prop := a.1 ≤ b.1

/-- Strict version of `keyLe`, used to identify sorted results uniquely. -/
def keyLt (a b : String × Val) : Prop := a.1 < b.1

instance : DecidableRel keyLe := fun a b => inferInstanceAs (Decidable (a.1 ≤ b.1))

instance : IsTotal (String × Val) keyLe := ⟨fun a b => le_total a.1 b.1⟩

instance : IsTrans (String × Val) keyLe := ⟨fun _ _ _ h₁ h₂ => le_trans h₁ h₂⟩

instance : IsAntisymm (String × Val) keyLt :=
  ⟨fun _ _ h₁ h₂ => absurd (lt_trans h₁ h₂) (lt_irrefl _)⟩

/-- Python's `sorted(d.items())`.  Python uses a stable sort; since dict
keys are distinct the sorted permutation is unique, so any sorting
algorithm models it. -/
def pySortDict (d : Dict) : Dict := d.insertionSort keyLe

/-- Modelled from the spec: `gen_hash` (from `evalscope.utils`, not under
`src/`) — "compute a cryptographic digest" of a string.  The digest itself
is modelled by a deterministic rolling hash; the claims depend only on it
being a fixed function of the input string. -/
def gen_hash (s : String) : String :=
  toString (s.foldl (fun h c => (h * 31 + c.toNat) % 1000000007) 7)

/-- `json.dumps(OrderedDict(sorted(dict_torch_dtype_to_str(d).items())), ensure_ascii=False)`
— the serialization applied to each of the three config dicts before
hashing (evaluator.py lines 156-162 / 178-184) and to the reviewer spec
(lines 276-277). -/
def sortedDictStr (d : Dict) : String :=
  dumpDict (pySortDict (dictNorm d))

/-- Answer-id generation (evaluator.py lines 155-163 / 177-185):
`'answer-' + gen_hash(model_cfg_str + input_prompt_str + infer_cfg_str)`. -/
def mkAnswerId (modelCfg inputPrompt inferCfg : Dict) : String :=
  "answer-" ++ gen_hash (sortedDictStr modelCfg ++ sortedDictStr inputPrompt ++ sortedDictStr inferCfg)

/-- Modelled from the spec: the key constants `AnswerKeys.*` of
`evalscope.constants` (not under `src/`); only their distinctness as tags
matters. -/
def ANSWER_ID : String := "answer_id"

/-- Modelled from the spec: `AnswerKeys.SUBSET_NAME`. -/
def SUBSET_NAME : String := "subset_name"

/-- Modelled from the spec: `AnswerKeys.MODEL_SPEC`. -/
def MODEL_SPEC : String := "model_spec"

/-- Modelled from the spec: `AnswerKeys.RAW_INPUT`. -/
def RAW_INPUT : String := "raw_input"

/-- Modelled from the spec: `AnswerKeys.ORIGIN_PROMPT`. -/
def ORIGIN_PROMPT : String := "origin_prompt"

/-- Modelled from the spec: `ReviewKeys.CONTENT` (key of the message dict
holding a choice's text). -/
def CONTENT : String := "content"

/-- One metric descriptor of the data adapter's `metric_list`; the external
interface guarantees a `name` field. -/
structure MetricD where
  name : String

/-- The slice of the pluggable `DataAdapter` interface that the evaluator
calls (external collaborator; its functions are opaque parameters). -/
structure DataAdapter where
  metric_list : List MetricD
  parse_pred_result : Val → Dict → String → Val
  get_gold_answer : Dict → Val
  matchFn : Val → Val → Val
  compute_metric : List Val → Val

/-- The pluggable model adapter: either a `CustomModelAdapter` (batch
predictor over the whole prompt list) or a base adapter (single-item
predictor); both expose a `model_cfg` mapping. -/
inductive ModelAdapter where
  | custom (model_cfg : Dict) (predictBatch : List Dict → Dict → List Dict)
  | base (model_cfg : Dict) (predict : Dict → Dict → Dict)

/-- `model_cfg` accessor of either adapter shape. -/
def ModelAdapter.model_cfg : ModelAdapter → Dict
  | .custom cfg _ => cfg
  | .base cfg _ => cfg

/-- The fields of `Evaluator` (`self`) that `get_answers` reads.  The
adapters are `Option`s because `get_answers` begins by asserting they are
not `None`; `use_cache`'s truthiness is a Bool. -/
structure Evaluator where
  data_adapter : Option DataAdapter
  model_adapter : Option ModelAdapter
  use_cache : Bool

/-- Failure modes of the embedded pipeline, following the spec's error
taxonomy: the precondition asserts of `get_answers` (lines 129-131), the
batch length-mismatch assert (line 150), and a `KeyError` on a missing
dict key. -/
inductive EvalError where
  | configurationError
  | contractViolation
  | keyError
deriving DecidableEq

/-- Observable outcome of a `get_answers` call: the returned answer list
(or the error that aborted it), the prediction file contents afterwards
(a jsonl file is a list of record dicts; `dump_jsonl_data(..., APPEND)`
appends one record), the number of predictor invocations, and the number
of file appends performed. -/
structure InferOut where
  result : Except EvalError (List Dict)
  file : List Dict
  calls : Nat
  appends : Nat

/-- One iteration of the single-item branch (lines 175-200): generate the
answer id, call the predictor (`_pred_answer`, which stamps the id and the
subset name), then attach model spec, raw input and origin prompt.
`prompt[RAW_INPUT]` missing is a `KeyError`. -/
def decorate_base (modelCfg : Dict) (predict : Dict → Dict → Dict) (subset : String)
    (inferCfg p : Dict) : Except EvalError Dict :=
  let aid := mkAnswerId modelCfg p inferCfg
  let ans := predict p inferCfg
  let ans := dictSet ans ANSWER_ID (.vstr aid)
  let ans := dictSet ans SUBSET_NAME (.vstr subset)
  let ans := dictSet ans MODEL_SPEC (.vdict modelCfg)
  match dictGet p RAW_INPUT with
  | none => .error .keyError
  | some ri => .ok (dictSet (dictSet ans RAW_INPUT ri) ORIGIN_PROMPT (.vdict p))

/-- One iteration of the batch branch (lines 153-172): generate the answer
id and attach model spec, id, subset name, raw input and origin prompt to
the predictor's response record. -/
def decorate_custom (modelCfg : Dict) (subset : String) (inferCfg p resp : Dict) :
    Except EvalError Dict :=
  let aid := mkAnswerId modelCfg p inferCfg
  let r := dictSet resp MODEL_SPEC (.vdict modelCfg)
  let r := dictSet r ANSWER_ID (.vstr aid)
  let r := dictSet r SUBSET_NAME (.vstr subset)
  match dictGet p RAW_INPUT with
  | none => .error .keyError
  | some ri => .ok (dictSet (dictSet r RAW_INPUT ri) ORIGIN_PROMPT (.vdict p))

/-- The `for input_prompt in prompts_list` loop of the single-item branch:
each produced answer is accumulated and immediately appended to the
prediction file; a raised error keeps the file state reached so far. -/
def inferLoopBase (modelCfg : Dict) (predict : Dict → Dict → Dict) (subset : String)
    (inferCfg : Dict) : List Dict → List Dict → List Dict → Nat → Nat → InferOut
  | [], acc, file, calls, appends => ⟨.ok acc, file, calls, appends⟩
  | p :: ps, acc, file, calls, appends =>
    match decorate_base modelCfg predict subset inferCfg p with
    | .error e => ⟨.error e, file, calls + 1, appends⟩
    | .ok a => inferLoopBase modelCfg predict subset inferCfg ps (acc ++ [a]) (file ++ [a])
        (calls + 1) (appends + 1)

/-- The `for in_d, resp_d in zip(...)` loop of the batch branch. -/
def inferLoopCustom (modelCfg : Dict) (subset : String) (inferCfg : Dict) :
    List (Dict × Dict) → List Dict → List Dict → Nat → Nat → InferOut
  | [], acc, file, calls, appends => ⟨.ok acc, file, calls, appends⟩
  | (p, resp) :: rest, acc, file, calls, appends =>
    match decorate_custom modelCfg subset inferCfg p resp with
    | .error e => ⟨.error e, file, calls, appends⟩
    | .ok a => inferLoopCustom modelCfg subset inferCfg rest (acc ++ [a]) (file ++ [a])
        calls (appends + 1)

/-- The cached answers loaded at lines 138-140: `jsonl_to_list` of the
prediction file when caching is on and the file exists, else nothing.
(Modelled from the spec for `jsonl_to_list`: loading parses every line
into a record list in file order.) -/
def effCached (ev : Evaluator) (fileExists : Bool) (file : List Dict) : List Dict :=
  if ev.use_cache && fileExists then file else []

/-- The prompt-list truncation at line 142: skip a leading slice as long as
the loaded answers. -/
def effPrompts (ev : Evaluator) (prompts : List Dict) (fileExists : Bool)
    (file : List Dict) : List Dict :=
  if ev.use_cache && fileExists then prompts.drop file.length else prompts

/-- `Evaluator.get_answers` (evaluator.py lines 101-203).  `fileExists` and
`file` describe the prediction file for this subset when the call starts;
the per-call filesystem effects are returned in the `InferOut`. -/
def get_answers (ev : Evaluator) (subset : String) (prompts : List Dict)
    (inferCfg : Dict) (fileExists : Bool) (file : List Dict) : InferOut :=
  if ev.data_adapter.isNone then ⟨.error .configurationError, file, 0, 0⟩
  else
    match ev.model_adapter with
    | none => ⟨.error .configurationError, file, 0, 0⟩
    | some ma =>
      if prompts.isEmpty then ⟨.error .configurationError, file, 0, 0⟩
      else
        let cached := effCached ev fileExists file
        let remaining := effPrompts ev prompts fileExists file
        match ma with
        | .custom mcfg predictBatch =>
          let resp := predictBatch remaining inferCfg
          if resp.length ≠ remaining.length then ⟨.error .contractViolation, file, 1, 0⟩
          else inferLoopCustom mcfg subset inferCfg (remaining.zip resp) cached file 1 0
        | .base mcfg predict =>
          inferLoopBase mcfg predict subset inferCfg remaining cached file 0 0

/-- The review verdict `{GOLD: ..., PRED: ..., RESULT: ...}` embedded into a
choice at lines 228-232. -/
structure Verdict where
  gold : Val
  pred : Val
  result : Val

/-- One candidate completion of an answer: its `message` dict and, after
review, the embedded verdict (`none` while the `REVIEW` key is absent). -/
structure Choice where
  message : Dict
  review : Option Verdict

/-- The fields of a persisted answer record that `get_reviews` /
`_get_review` read: the answer id (a string, concatenated into the review
id), the raw input, and the choice list. -/
structure Answer where
  answerId : String
  rawInput : Dict
  choices : List Choice

/-- A review record: the (copied) answer enriched with the `REVIEWED` flag,
the review id (`None` in the degenerate branch, hence an `Option`), the
reviewer spec and the review timestamp. -/
structure Review where
  answerId : String
  rawInput : Dict
  choices : List Choice
  reviewed : Bool
  reviewId : Option String
  reviewerSpec : Dict
  reviewTime : Nat

/-- The per-choice body of `_get_review`'s loop (lines 220-234): extract
`choice[MESSAGE][CONTENT]` (missing key = `KeyError`), parse it, fetch the
gold answer, match, and embed the verdict into the choice. -/
def reviewChoices (da : DataAdapter) (evalType : String) (rawInput : Dict) :
    List Choice → Option (List Choice)
  | [] => some []
  | c :: cs =>
    match dictGet c.message CONTENT with
    | none => none
    | some content =>
      let parsed := da.parse_pred_result content rawInput evalType
      let gold := da.get_gold_answer rawInput
      let res := da.matchFn gold parsed
      match reviewChoices da evalType rawInput cs with
      | none => none
      | some rest => some ({ c with review := some ⟨gold, parsed, res⟩ } :: rest)

/-- `Evaluator._get_review` (lines 205-242), acting on a deep copy of the
answer.  An empty choice list yields the degenerate unreviewed record with
a `None` review id; otherwise every choice gets a verdict and the passed
review id is stored.  `now` stands for the `time.time()` stamp. -/
def _get_review (da : DataAdapter) (evalType : String) (a : Answer)
    (review_id : String) (spec : Dict) (now : Nat) : Option Review :=
  if a.choices.isEmpty then
    some { answerId := a.answerId, rawInput := a.rawInput, choices := a.choices,
           reviewed := false, reviewId := none, reviewerSpec := spec, reviewTime := now }
  else
    match reviewChoices da evalType a.rawInput a.choices with
    | none => none
    | some cs' =>
      some { answerId := a.answerId, rawInput := a.rawInput, choices := cs',
             reviewed := true, reviewId := some review_id, reviewerSpec := spec,
             reviewTime := now }

/-- The reviewer specification dict built at lines 271-275. -/
def reviewerSpecDict (da : DataAdapter) : Dict :=
  [("metric", .vlist (da.metric_list.map (fun m => .vstr m.name))),
   ("reviewer", .vlist [.vstr "Evaluator"]),
   ("revision", .vlist [.vstr "default"])]

/-- Review-id generation (lines 276-278):
`'review-' + gen_hash(answer_id + reviewer_spec_str)`. -/
def ridOf (da : DataAdapter) (a : Answer) : String :=
  "review-" ++ gen_hash (a.answerId ++ sortedDictStr (reviewerSpecDict da))

/-- Observable outcome of a `get_reviews` call: the returned review list
(or the aborting error), the review file contents afterwards, and whether
the cache-ignored warning was emitted. -/
structure ReviewOut where
  result : Except EvalError (List Review)
  file : List Review
  warned : Bool

/-- The `for answer_d in answers_list` loop of `get_reviews`
(lines 266-289): compute the reviewer spec and review id, review the
answer, accumulate it and append it to the review file. -/
def reviewLoop (da : DataAdapter) (evalType : String) (now : Nat) :
    List Answer → List Review → List Review → Except EvalError (List Review) × List Review
  | [], acc, file => (.ok acc, file)
  | a :: as, acc, file =>
    match _get_review da evalType a (ridOf da a) (reviewerSpecDict da) now with
    | none => (.error .keyError, file)
    | some r => reviewLoop da evalType now as (acc ++ [r]) (file ++ [r])

/-- `Evaluator.get_reviews` (lines 244-291).  The review file is never
loaded: when caching was requested and the file exists only a warning is
logged (line 263-264), and every review is appended regardless. -/
def get_reviews (da : DataAdapter) (evalType : String) (useCache fileExists : Bool)
    (file : List Review) (answers : List Answer) (now : Nat) : ReviewOut :=
  let warned := useCache && fileExists
  let (res, file') := reviewLoop da evalType now answers [] file
  ⟨res, file', warned⟩

/-- The filtering loop of `compute_metrics` (lines 305-312): skip
`reviewed=False` records (counting the warnings logged), read
`choices[0][REVIEW][RESULT]` from the rest (`none` = the `IndexError` /
`KeyError` the source would raise). -/
def collectResultsW : List Review → Option (List Val) × Nat
  | [] => (some [], 0)
  | r :: rs =>
    if r.reviewed then
      match r.choices.head? with
      | none => (none, (collectResultsW rs).2)
      | some c =>
        match c.review with
        | none => (none, (collectResultsW rs).2)
        | some v =>
          ((collectResultsW rs).1.map (fun l => v.result :: l), (collectResultsW rs).2)
    else
      ((collectResultsW rs).1, (collectResultsW rs).2 + 1)

/-- `Evaluator.compute_metrics` (lines 293-316): forward the collected
verdict results to the adapter's metric function. -/
def compute_metrics (da : DataAdapter) (reviews : List Review) : Option Val :=
  (collectResultsW reviews).1.map da.compute_metric

/-- The number of `Review not finished` warnings `compute_metrics` logs. -/
def compute_metrics_warns (reviews : List Review) : Nat :=
  (collectResultsW reviews).2

/-- The per-subset accumulation of `eval` (lines 396-397):
`reviews_score_all[subset_name] = (metric_res, len(reviews_list))`. -/
def subset_score_entry (da : DataAdapter) (reviews : List Review) : Option (Val × Nat) :=
  (compute_metrics da reviews).map (fun m => (m, reviews.length))

/-!
Heap-level embedding of `get_reviews`.  The value-level model above cannot
express Python aliasing, so the frame claim (reviewing never mutates the
persisted answer objects) is settled on a small heap: answer dicts and
choice dicts are heap objects, an answer holds the addresses of its choice
dicts, `deepcopy` allocates fresh addresses, and the in-place updates
(`review_res[...] = ...`, `choice[REVIEW] = ...`) become `List.set` at an
address.
-/

/-- The mutable top-level fields of an answer dict; the review-related keys
are absent (`none`) until `_get_review` writes them. -/
structure AnswerFields where
  answerId : String
  rawInput : Dict
  reviewed : Option Bool
  reviewId : Option (Option String)
  reviewerSpec : Option Dict
  reviewTime : Option Nat

/-- A heap object: an answer dict (fields plus the addresses of its choice
dicts) or a choice dict (message plus optional embedded verdict). -/
inductive HObj where
  | answerObj (f : AnswerFields) (choiceAddrs : List Nat)
  | choiceObj (message : Dict) (review : Option Verdict)

/-- The heap: object at address `i` is entry `i`; allocation appends. -/
abbrev Heap := List HObj

/-- Dereference an address (reads of dangling addresses cannot arise in
runs of the source; the default is irrelevant to the frame theorem). -/
def heapGet (h : Heap) (i : Nat) : HObj :=
  h.getD i (.choiceObj [] none)

/-- The part of `deepcopy(answer_d)` that copies the choice dicts: fresh
addresses for copies of the originals, in order. -/
def copyChoices (orig : Heap) : List Nat → Heap → Heap × List Nat
  | [], h => (h, [])
  | a :: as, h =>
    let h1 := h ++ [heapGet orig a]
    let (h2, rest) := copyChoices orig as h1
    (h2, h.length :: rest)

/-- `deepcopy(answer_d)` (line 210): copy the choice dicts, then allocate
the copied answer dict pointing at the fresh choice addresses. -/
def deepcopyAnswer (h : Heap) (a : Nat) : Heap × Nat :=
  match heapGet h a with
  | .answerObj f cs =>
    let (h1, cs') := copyChoices h cs h
    (h1 ++ [.answerObj f cs'], h1.length)
  | .choiceObj m r => (h ++ [.choiceObj m r], h.length)

/-- The per-choice loop of `_get_review` on the heap: `choice[REVIEW] = ...`
is a store at the choice's address.  On a missing content key the run
aborts (`false`), returning the heap reached so far. -/
def reviewChoicesH (da : DataAdapter) (evalType : String) (rawInput : Dict) :
    List Nat → Heap → Heap × Bool
  | [], h => (h, true)
  | a :: as, h =>
    match heapGet h a with
    | .choiceObj msg _ =>
      match dictGet msg CONTENT with
      | none => (h, false)
      | some content =>
        let parsed := da.parse_pred_result content rawInput evalType
        let gold := da.get_gold_answer rawInput
        let res := da.matchFn gold parsed
        reviewChoicesH da evalType rawInput as (h.set a (.choiceObj msg (some ⟨gold, parsed, res⟩)))
    | .answerObj _ _ => (h, false)

/-- `Evaluator._get_review` on the heap: deep-copy the answer, then mutate
only the copy — its review fields, and (in the non-degenerate branch) its
copied choice dicts. -/
def getReviewH (da : DataAdapter) (evalType : String) (rid : String) (spec : Dict)
    (now : Nat) (h : Heap) (a : Nat) : Heap × Option Nat :=
  let (h1, root) := deepcopyAnswer h a
  match heapGet h1 root with
  | .answerObj f cs =>
    if cs.isEmpty then
      (h1.set root (.answerObj { f with
          reviewed := some false, reviewId := some none,
          reviewerSpec := some spec, reviewTime := some now } cs), some root)
    else
      match reviewChoicesH da evalType f.rawInput cs h1 with
      | (h2, false) => (h2, none)
      | (h2, true) =>
        (h2.set root (.answerObj { f with
            reviewed := some true, reviewId := some (some rid),
            reviewerSpec := some spec, reviewTime := some now } cs), some root)
  | .choiceObj _ _ => (h1, none)

/-- Review-id generation on the heap (lines 268-278), reading the answer
id from the heap object. -/
def ridOfH (da : DataAdapter) (h : Heap) (a : Nat) : String :=
  let aid := match heapGet h a with
    | .answerObj f _ => f.answerId
    | .choiceObj _ _ => ""
  "review-" ++ gen_hash (aid ++ sortedDictStr (reviewerSpecDict da))

/-- The `get_reviews` loop on the heap, over the addresses of the input
answer dicts. -/
def getReviewsH (da : DataAdapter) (evalType : String) (now : Nat) :
    List Nat → Heap → Heap × Bool
  | [], h => (h, true)
  | a :: as, h =>
    match getReviewH da evalType (ridOfH da h a) (reviewerSpecDict da) now h a with
    | (h1, none) => (h1, false)
    | (h1, some _) => getReviewsH da evalType now as h1

/-- `h'` extends `h`: the heap only grew and every pre-existing address
holds its old object. -/
def HeapExt (h h' : Heap) : Prop :=
  h.length ≤ h'.length ∧ h'.take h.length = h

/-!
Concrete instances used to instantiate the theorems below on closed
inputs.
-/

/-- A concrete data adapter: one metric, identity parsing, constant gold
answer, constant match verdict, metric = number of verdicts. -/
def da0 : DataAdapter :=
  { metric_list := [⟨"AverageAccuracy"⟩],
    parse_pred_result := fun content _ _ => content,
    get_gold_answer := fun _ => .vstr "A",
    matchFn := fun _ _ => .vint 1,
    compute_metric := fun l => .vint l.length }

/-- A concrete message dict with a `content` entry. -/
def msgHello : Dict := [("content", .vstr "hello")]

/-- A concrete unreviewed choice. -/
def choiceHello : Choice := ⟨msgHello, none⟩

/-- A concrete answer with one choice. -/
def ansA : Answer := ⟨"answer-a", [("q", .vint 1)], [choiceHello]⟩

/-- A second concrete answer with one choice. -/
def ansB : Answer := ⟨"answer-b", [("q", .vint 2)], [choiceHello]⟩

/-- A concrete answer with an empty choice list (the degenerate case). -/
def ansEmpty : Answer := ⟨"answer-e", [("q", .vint 3)], []⟩

/-- Reviews produced for a three-answer subset whose middle answer has no
choices. -/
def reviews3 : List Review :=
  ((get_reviews da0 "custom" false false [] [ansA, ansEmpty, ansB] 0).result).toOption.getD []

/-- Reviews produced for a two-answer subset whose answers all have
choices. -/
def reviews2 : List Review :=
  ((get_reviews da0 "custom" false false [] [ansA, ansB] 0).result).toOption.getD []

/-- Reviews produced for the single empty-choice answer. -/
def reviewsE : List Review :=
  ((get_reviews da0 "custom" false false [] [ansEmpty] 0).result).toOption.getD []

/-- Reviews produced for the single one-choice answer. -/
def reviewsA : List Review :=
  ((get_reviews da0 "custom" false false [] [ansA] 0).result).toOption.getD []

/-- A concrete model config. -/
def mcfg0 : Dict := [("model", .vstr "m")]

/-- A concrete inference config. -/
def cfg0 : Dict := [("temperature", .vint 0)]

/-- A concrete single-item predictor. -/
def predict0 : Dict → Dict → Dict := fun _ _ => [("resp", .vint 7)]

/-- Concrete prompts carrying a `raw_input` entry. -/
def p1 : Dict := [("raw_input", .vint 1)]

/-- Second concrete prompt. -/
def p2 : Dict := [("raw_input", .vint 2)]

/-- A record standing for one already-cached answer line. -/
def cachedAns : Dict := [("cached", .vint 0)]

/-- The answer `decorate_base` produces for `p2`. -/
def ans2 : Dict := (decorate_base mcfg0 predict0 "sub" cfg0 p2).toOption.getD []

/-- An evaluator with a single-item model adapter and caching enabled. -/
def evBase : Evaluator := ⟨some da0, some (.base mcfg0 predict0), true⟩

/-- An evaluator whose custom (batch) model adapter always returns an empty
result list. -/
def evCustomBad : Evaluator := ⟨some da0, some (.custom mcfg0 (fun _ _ => [])), false⟩

/-- An evaluator with no model adapter. -/
def evNoModel : Evaluator := ⟨some da0, none, false⟩

/-- Dicts for the identifier-determinism instance: same key-value set, the
keys in different insertion order and the dtype marker unnormalized on one
side. -/
def m1d : Dict := [("b", .vint 1), ("a", .vdtype "torch.float16")]

/-- The reordered, pre-normalized counterpart of `m1d`. -/
def m2d : Dict := [("a", .vstr "torch.float16"), ("b", .vint 1)]

/-- A concrete input-prompt dict. -/
def i0d : Dict := [("q", .vstr "hi")]

/-- A concrete inference-config dict. -/
def c0d : Dict := [("t", .vint 0)]

/-- The choice of `ansA` after review under `da0`. -/
def reviewedChoiceA : Choice :=
  { message := msgHello, review := some ⟨.vstr "A", .vstr "hello", .vint 1⟩ }

/-- The review `get_reviews` produces for `ansA` under `da0` at time 0. -/
def revA : Review :=
  { answerId := ansA.answerId, rawInput := ansA.rawInput, choices := [reviewedChoiceA],
    reviewed := true, reviewId := some (ridOf da0 ansA),
    reviewerSpec := reviewerSpecDict da0, reviewTime := 0 }

/-!
Theorems.
-/

theorem dictNorm_keys (d : Dict) : (dictNorm d).map Prod.fst = d.map Prod.fst := by
  induction d with
  | nil => rfl
  | cons kv ps ih =>
    obtain ⟨k, v⟩ := kv
    show (valNormPairs ((k, v) :: ps)).map Prod.fst = _
    rw [valNormPairs]
    simpa using ih

theorem pySort_eq_of_perm (l₁ l₂ : Dict) (hp : l₁.Perm l₂)
    (hk : (l₁.map Prod.fst).Nodup) : pySortDict l₁ = pySortDict l₂ := by
  have hperm₁ : (pySortDict l₁).Perm l₁ := List.perm_insertionSort keyLe l₁
  have hperm₂ : (pySortDict l₂).Perm l₂ := List.perm_insertionSort keyLe l₂
  have hs₁ : (pySortDict l₁).Sorted keyLe := List.sorted_insertionSort keyLe l₁
  have hs₂ : (pySortDict l₂).Sorted keyLe := List.sorted_insertionSort keyLe l₂
  have hk₂ : (l₂.map Prod.fst).Nodup := ((hp.map Prod.fst).nodup_iff).mp hk
  have hn₁ : ((pySortDict l₁).map Prod.fst).Nodup := ((hperm₁.map Prod.fst).nodup_iff).mpr hk
  have hn₂ : ((pySortDict l₂).map Prod.fst).Nodup := ((hperm₂.map Prod.fst).nodup_iff).mpr hk₂
  have hlt₁ : (pySortDict l₁).Sorted keyLt := by
    have hne : (pySortDict l₁).Pairwise (fun a b => a.1 ≠ b.1) := List.pairwise_map.mp hn₁
    exact (hs₁.and hne).imp (fun h => lt_of_le_of_ne h.1 h.2)
  have hlt₂ : (pySortDict l₂).Sorted keyLt := by
    have hne : (pySortDict l₂).Pairwise (fun a b => a.1 ≠ b.1) := List.pairwise_map.mp hn₂
    exact (hs₂.and hne).imp (fun h => lt_of_le_of_ne h.1 h.2)
  exact List.eq_of_perm_of_sorted (hperm₁.trans (hp.trans hperm₂.symm)) hlt₁ hlt₂

/-- Claim C1: the answer identifier generated by `get_answers` is a pure
function of the contents of the model config, input prompt and inference
config: mappings equal as key-value sets after dtype normalization
(regardless of key insertion order) yield the same identifier, and the
identifier is `'answer-'` followed by the hash of the sorted-key JSON
serializations concatenated in the order model-config, input,
inference-config. -/
theorem answer_id_deterministic (m₁ i₁ c₁ m₂ i₂ c₂ : Dict)
    (hm : (dictNorm m₁).Perm (dictNorm m₂)) (hi : (dictNorm i₁).Perm (dictNorm i₂))
    (hc : (dictNorm c₁).Perm (dictNorm c₂))
    (hkm : (m₁.map Prod.fst).Nodup) (hki : (i₁.map Prod.fst).Nodup)
    (hkc : (c₁.map Prod.fst).Nodup) :
    mkAnswerId m₁ i₁ c₁ = mkAnswerId m₂ i₂ c₂ ∧
    mkAnswerId m₁ i₁ c₁ =
      "answer-" ++ gen_hash (sortedDictStr m₁ ++ sortedDictStr i₁ ++ sortedDictStr c₁) := by
  have km : ((dictNorm m₁).map Prod.fst).Nodup := by rw [dictNorm_keys]; exact hkm
  have ki : ((dictNorm i₁).map Prod.fst).Nodup := by rw [dictNorm_keys]; exact hki
  have kc : ((dictNorm c₁).map Prod.fst).Nodup := by rw [dictNorm_keys]; exact hkc
  constructor
  · unfold mkAnswerId sortedDictStr
    rw [pySort_eq_of_perm _ _ hm km, pySort_eq_of_perm _ _ hi ki, pySort_eq_of_perm _ _ hc kc]
  · rfl

/-- Witness for C1 at concrete configs: the same key-value sets with
different insertion order and an unnormalized dtype marker on one side. -/
theorem answer_id_deterministic_witness :
    mkAnswerId m1d i0d c0d = mkAnswerId m2d i0d c0d :=
  (answer_id_deterministic m1d i0d c0d m2d i0d c0d
    (by
      show List.Perm [("b", Val.vint 1), ("a", Val.vstr "torch.float16")]
        [("a", Val.vstr "torch.float16"), ("b", Val.vint 1)]
      exact List.Perm.swap _ _ _)
    (List.Perm.refl _) (List.Perm.refl _)
    (by decide) (by decide) (by decide)).1

theorem decorate_base_error (mcfg : Dict) (predict : Dict → Dict → Dict) (subset : String)
    (inferCfg p : Dict) (e : EvalError)
    (h : decorate_base mcfg predict subset inferCfg p = .error e) : e = .keyError := by
  unfold decorate_base at h
  rcases hg : dictGet p RAW_INPUT with _ | ri <;> rw [hg] at h <;> simp at h
  exact h.symm

theorem decorate_custom_error (mcfg : Dict) (subset : String) (inferCfg p resp : Dict)
    (e : EvalError) (h : decorate_custom mcfg subset inferCfg p resp = .error e) :
    e = .keyError := by
  unfold decorate_custom at h
  rcases hg : dictGet p RAW_INPUT with _ | ri <;> rw [hg] at h <;> simp at h
  exact h.symm

theorem inferLoopBase_ok (mcfg : Dict) (predict : Dict → Dict → Dict) (subset : String)
    (inferCfg : Dict) {ps news : List Dict}
    (h : List.Forall₂ (fun p a => decorate_base mcfg predict subset inferCfg p = .ok a) ps news)
    (acc file : List Dict) (calls appends : Nat) :
    inferLoopBase mcfg predict subset inferCfg ps acc file calls appends =
      ⟨.ok (acc ++ news), file ++ news, calls + ps.length, appends + news.length⟩ := by
  induction h generalizing acc file calls appends with
  | nil => simp [inferLoopBase]
  | @cons p a ps' news' hpa _ ih =>
    rw [inferLoopBase, hpa]
    show inferLoopBase mcfg predict subset inferCfg ps' (acc ++ [a]) (file ++ [a])
      (calls + 1) (appends + 1) = _
    rw [ih]
    simp only [InferOut.mk.injEq, List.append_assoc, List.singleton_append, List.length_cons]
    refine ⟨trivial, trivial, by omega, by omega⟩

theorem inferLoopBase_not_config (mcfg : Dict) (predict : Dict → Dict → Dict) (subset : String)
    (inferCfg : Dict) (ps : List Dict) :
    ∀ (acc file : List Dict) (calls appends : Nat),
      (inferLoopBase mcfg predict subset inferCfg ps acc file calls appends).result ≠
        .error .configurationError := by
  induction ps with
  | nil => intro acc file calls appends; simp [inferLoopBase]
  | cons p ps ih =>
    intro acc file calls appends
    rw [inferLoopBase]
    rcases hd : decorate_base mcfg predict subset inferCfg p with e | a
    · have := decorate_base_error mcfg predict subset inferCfg p e hd
      subst this
      simp
    · exact ih _ _ _ _

theorem inferLoopCustom_not_config (mcfg : Dict) (subset : String) (inferCfg : Dict)
    (ps : List (Dict × Dict)) :
    ∀ (acc file : List Dict) (calls appends : Nat),
      (inferLoopCustom mcfg subset inferCfg ps acc file calls appends).result ≠
        .error .configurationError := by
  induction ps with
  | nil => intro acc file calls appends; simp [inferLoopCustom]
  | cons pr ps ih =>
    intro acc file calls appends
    obtain ⟨p, resp⟩ := pr
    rw [inferLoopCustom]
    rcases hd : decorate_custom mcfg subset inferCfg p resp with e | a
    · have := decorate_custom_error mcfg subset inferCfg p resp e hd
      subst this
      simp
    · exact ih _ _ _ _

/-- Claim C2: with caching enabled and a prediction file present at the
start of `get_answers` (single-item branch), the persisted answers are
loaded into the returned list in file order, a leading slice of the prompt
list as long as the loaded answers is skipped, the predictor runs exactly
once per remaining prompt, and the returned list and the file both equal
the cached answers followed by the newly produced ones in prompt order,
with one append per new answer. -/
theorem get_answers_resume (ev : Evaluator) (da : DataAdapter) (mcfg : Dict)
    (predict : Dict → Dict → Dict) (subset : String) (prompts : List Dict)
    (inferCfg : Dict) (file news : List Dict)
    (hda : ev.data_adapter = some da)
    (hma : ev.model_adapter = some (.base mcfg predict))
    (huc : ev.use_cache = true) (hne : prompts ≠ [])
    (hnews : List.Forall₂ (fun p a => decorate_base mcfg predict subset inferCfg p = .ok a)
      (prompts.drop file.length) news) :
    get_answers ev subset prompts inferCfg true file =
      ⟨.ok (file ++ news), file ++ news, news.length, news.length⟩ ∧
    news.length = (prompts.drop file.length).length := by
  have hlen : (prompts.drop file.length).length = news.length := hnews.length_eq
  have hie : prompts.isEmpty = false := by
    cases prompts with
    | nil => exact absurd rfl hne
    | cons a l => rfl
  constructor
  · rw [get_answers, hda, hma]
    simp only [Option.isNone_some, Bool.false_eq_true, if_false, hie,
      effCached, effPrompts, huc, Bool.true_and, if_true]
    rw [inferLoopBase_ok mcfg predict subset inferCfg hnews file file 0 0]
    simp [hlen]
  · omega

/-- Witness for C2: one cached answer, two prompts; only the second prompt
is predicted. -/
theorem get_answers_resume_witness :
    (get_answers evBase "sub" [p1, p2] cfg0 true [cachedAns]).calls = 1 := by
  have h := get_answers_resume evBase da0 mcfg0 predict0 "sub" [p1, p2] cfg0 [cachedAns] [ans2]
    rfl rfl rfl (by simp) (by exact List.Forall₂.cons rfl List.Forall₂.nil)
  rw [h.1]
  rfl

/-- Claim C3: in the batch (custom-model) branch, a predictor result list
whose length differs from the submitted prompt list aborts the run with a
contract violation before anything is appended to the prediction file or
returned. -/
theorem batch_mismatch_aborts (ev : Evaluator) (da : DataAdapter) (mcfg : Dict)
    (predictBatch : List Dict → Dict → List Dict) (subset : String)
    (prompts : List Dict) (inferCfg : Dict) (fileExists : Bool) (file : List Dict)
    (hda : ev.data_adapter = some da)
    (hma : ev.model_adapter = some (.custom mcfg predictBatch))
    (hne : prompts ≠ [])
    (hmm : (predictBatch (effPrompts ev prompts fileExists file) inferCfg).length ≠
      (effPrompts ev prompts fileExists file).length) :
    get_answers ev subset prompts inferCfg fileExists file =
      ⟨.error .contractViolation, file, 1, 0⟩ := by
  have hie : prompts.isEmpty = false := by
    cases prompts with
    | nil => exact absurd rfl hne
    | cons a l => rfl
  rw [get_answers, hda, hma]
  simp only [Option.isNone_some, Bool.false_eq_true, if_false, hie, if_pos hmm]

/-- Witness for C3: a batch predictor that returns an empty list for a
one-prompt subset. -/
theorem batch_mismatch_aborts_witness :
    get_answers evCustomBad "sub" [p1] cfg0 false [] =
      ⟨.error .contractViolation, [], 1, 0⟩ :=
  batch_mismatch_aborts evCustomBad da0 mcfg0 (fun _ _ => []) "sub" [p1] cfg0 false []
    rfl rfl (by simp) (by decide)

/-- Claim C8: `get_answers` fails with the configuration error exactly when
the data adapter is missing, the model adapter is missing, or the prompt
list is empty; in that case it fails before any predictor call and before
any append to the prediction file. -/
theorem config_error_iff (ev : Evaluator) (subset : String) (prompts : List Dict)
    (inferCfg : Dict) (fileExists : Bool) (file : List Dict) :
    ((get_answers ev subset prompts inferCfg fileExists file).result =
        .error .configurationError ↔
      (ev.data_adapter = none ∨ ev.model_adapter = none ∨ prompts = [])) ∧
    ((ev.data_adapter = none ∨ ev.model_adapter = none ∨ prompts = []) →
      get_answers ev subset prompts inferCfg fileExists file =
        ⟨.error .configurationError, file, 0, 0⟩) := by
  rcases hda : ev.data_adapter with _ | da
  · constructor
    · simp [get_answers, hda]
    · intro _; simp [get_answers, hda]
  · rcases hma : ev.model_adapter with _ | ma
    · constructor
      · simp [get_answers, hda, hma]
      · intro _; simp [get_answers, hda, hma]
    · rcases hps : prompts with _ | ⟨p, ps⟩
      · constructor
        · simp [get_answers, hda, hma]
        · intro _; simp [get_answers, hda, hma]
      · have hnc : (get_answers ev subset (p :: ps) inferCfg fileExists file).result ≠
            .error .configurationError := by
          rw [get_answers, hda, hma]
          simp only [Option.isNone_some, Bool.false_eq_true, if_false, List.isEmpty_cons]
          split
          · split
            · simp
            · exact inferLoopCustom_not_config _ _ _ _ _ _ _ _
          · exact inferLoopBase_not_config _ _ _ _ _ _ _ _ _
        refine ⟨⟨fun h => absurd h hnc, ?_⟩, ?_⟩
        · rintro (h | h | h)
          · exact absurd h (by simp)
          · exact absurd h (by simp)
          · exact absurd h (by simp)
        · rintro (h | h | h)
          · exact absurd h (by simp)
          · exact absurd h (by simp)
          · exact absurd h (by simp)

/-- Witness for C8: a missing model adapter aborts before any work, with
the file untouched. -/
theorem config_error_iff_witness :
    get_answers evNoModel "sub" [p1] cfg0 false [cachedAns] =
      ⟨.error .configurationError, [cachedAns], 0, 0⟩ :=
  (config_error_iff evNoModel "sub" [p1] cfg0 false [cachedAns]).2 (Or.inr (Or.inl rfl))

theorem reviewChoices_spec (da : DataAdapter) (et : String) (raw : Dict) :
    ∀ (cs cs' : List Choice), reviewChoices da et raw cs = some cs' →
      cs'.length = cs.length ∧ ∀ c ∈ cs', c.review.isSome = true := by
  intro cs
  induction cs with
  | nil =>
    intro cs' h
    rw [reviewChoices] at h
    injection h with h
    subst h
    simp
  | cons c cs ih =>
    intro cs' h
    rw [reviewChoices] at h
    split at h
    · exact absurd h (by simp)
    · split at h
      · exact absurd h (by simp)
      · rename_i rest hr
        injection h with h
        subst h
        obtain ⟨hl, hall⟩ := ih rest hr
        refine ⟨by simp [hl], ?_⟩
        intro x hx
        rcases List.mem_cons.mp hx with rfl | hx
        · rfl
        · exact hall x hx

theorem get_review_inv (da : DataAdapter) (et : String) (a : Answer) (rid : String)
    (spec : Dict) (now : Nat) (r : Review)
    (h : _get_review da et a rid spec now = some r) :
    (a.choices = [] ∧ r.reviewed = false ∧ r.reviewId = none ∧ r.choices = []) ∨
    (a.choices ≠ [] ∧ ∃ cs', reviewChoices da et a.rawInput a.choices = some cs' ∧
      r.reviewed = true ∧ r.reviewId = some rid ∧ r.choices = cs') := by
  rw [_get_review] at h
  split at h
  · rename_i he
    have he' : a.choices = [] := by
      cases hc : a.choices with
      | nil => rfl
      | cons x xs => rw [hc] at he; exact absurd he (by simp)
    injection h with h
    subst h
    exact Or.inl ⟨he', rfl, rfl, he'⟩
  · rename_i he
    have he' : a.choices ≠ [] := by
      intro hc
      rw [hc] at he
      exact absurd rfl he
    split at h
    · exact absurd h (by simp)
    · rename_i cs' hr
      injection h with h
      subst h
      exact Or.inr ⟨he', cs', hr, rfl, rfl, rfl⟩

theorem reviewLoop_ok_inv (da : DataAdapter) (et : String) (now : Nat) :
    ∀ (answers : List Answer) (acc file rs fileOut : List Review),
      reviewLoop da et now answers acc file = (.ok rs, fileOut) →
      ∃ reviews, rs = acc ++ reviews ∧ fileOut = file ++ reviews ∧
        List.Forall₂ (fun a r =>
          _get_review da et a (ridOf da a) (reviewerSpecDict da) now = some r)
          answers reviews := by
  intro answers
  induction answers with
  | nil =>
    intro acc file rs fileOut h
    rw [reviewLoop] at h
    injection h with h1 h2
    injection h1 with h1
    subst h1
    subst h2
    exact ⟨[], by simp, by simp, List.Forall₂.nil⟩
  | cons a as ih =>
    intro acc file rs fileOut h
    rw [reviewLoop] at h
    split at h
    · exact absurd h (by simp)
    · rename_i r hr
      obtain ⟨reviews, h1, h2, h3⟩ := ih (acc ++ [r]) (file ++ [r]) rs fileOut h
      refine ⟨r :: reviews, ?_, ?_, List.Forall₂.cons hr h3⟩
      · rw [h1, List.append_assoc, List.singleton_append]
      · rw [h2, List.append_assoc, List.singleton_append]

theorem get_reviews_unfold (da : DataAdapter) (et : String) (uc fe : Bool)
    (file : List Review) (answers : List Answer) (now : Nat) :
    get_reviews da et uc fe file answers now =
      ⟨(reviewLoop da et now answers [] file).1,
       (reviewLoop da et now answers [] file).2, uc && fe⟩ := rfl

theorem get_reviews_ok_spec (da : DataAdapter) (et : String) (uc fe : Bool)
    (file : List Review) (answers : List Answer) (now : Nat) (rs : List Review)
    (h : (get_reviews da et uc fe file answers now).result = .ok rs) :
    (get_reviews da et uc fe file answers now).file = file ++ rs ∧
    List.Forall₂ (fun a r =>
      _get_review da et a (ridOf da a) (reviewerSpecDict da) now = some r) answers rs := by
  rw [get_reviews_unfold] at h ⊢
  have hE : reviewLoop da et now answers [] file =
      (.ok rs, (reviewLoop da et now answers [] file).2) := by
    rw [← h]
  obtain ⟨reviews, h1, h2, h3⟩ := reviewLoop_ok_inv da et now answers [] file rs _ hE
  simp only [List.nil_append] at h1
  subst h1
  exact ⟨h2, h3⟩

theorem reviewLoop_result_indep (da : DataAdapter) (et : String) (now : Nat) :
    ∀ (answers : List Answer) (acc file file' : List Review),
      (reviewLoop da et now answers acc file).1 =
        (reviewLoop da et now answers acc file').1 := by
  intro answers
  induction answers with
  | nil => intro acc file file'; rfl
  | cons a as ih =>
    intro acc file file'
    rw [reviewLoop, reviewLoop]
    rcases hgr : _get_review da et a (ridOf da a) (reviewerSpecDict da) now with _ | r
    · rfl
    · exact ih (acc ++ [r]) (file ++ [r]) (file' ++ [r])

/-- Claim C7: `get_reviews` never reuses an existing review file: its
result does not depend on the file contents, every answer gets a freshly
computed review, every review is appended to the file regardless of the
cache setting, and the cache-ignored warning fires exactly when caching
was requested and the file exists. -/
theorem reviews_never_cached (da : DataAdapter) (et : String) (uc fe : Bool)
    (file : List Review) (answers : List Answer) (now : Nat) :
    (get_reviews da et uc fe file answers now).warned = (uc && fe) ∧
    (get_reviews da et uc fe file answers now).result =
      (get_reviews da et uc fe [] answers now).result ∧
    ∀ rs, (get_reviews da et uc fe file answers now).result = .ok rs →
      (get_reviews da et uc fe file answers now).file = file ++ rs ∧
      List.Forall₂ (fun a r =>
        _get_review da et a (ridOf da a) (reviewerSpecDict da) now = some r) answers rs := by
  refine ⟨by rw [get_reviews_unfold], ?_,
    fun rs h => get_reviews_ok_spec da et uc fe file answers now rs h⟩
  rw [get_reviews_unfold, get_reviews_unfold]
  exact reviewLoop_result_indep da et now answers [] file []

/-- Witness for C7: the warning fires when caching was requested and a
review file exists. -/
theorem reviews_never_cached_witness :
    (get_reviews da0 "custom" true true [] [ansA] 0).warned = true := by
  have h := (reviews_never_cached da0 "custom" true true [] [ansA] 0).1
  simpa using h

/-- Counterexample to C6 as stated: the review of an empty-choice answer
carries a `None` review identifier, not a `'review-'`-prefixed hash. -/
theorem review_id_cex : reviewsE.map (fun r => r.reviewId) = [none] := rfl

/-- Claim C6 (amended): every review `get_reviews` produces for an answer
with a nonempty choice list carries the identifier `'review-'` followed by
the hash of the answer id concatenated with the sorted-key serialization
of the reviewer spec; the degenerate review of an empty-choice answer
carries a null identifier instead. -/
theorem review_id_assignment (da : DataAdapter) (et : String) (uc fe : Bool)
    (file : List Review) (answers : List Answer) (now : Nat) (rs : List Review)
    (h : (get_reviews da et uc fe file answers now).result = .ok rs) :
    List.Forall₂ (fun a r =>
      (a.choices ≠ [] → r.reviewId =
        some ("review-" ++ gen_hash (a.answerId ++ sortedDictStr (reviewerSpecDict da)))) ∧
      (a.choices = [] → r.reviewId = none)) answers rs := by
  have h2 := (get_reviews_ok_spec da et uc fe file answers now rs h).2
  refine h2.imp ?_
  intro a r hr
  rcases get_review_inv da et a (ridOf da a) (reviewerSpecDict da) now r hr with
    ⟨he, _, hid, _⟩ | ⟨hne, cs', _, _, hid, _⟩
  · exact ⟨fun hn => absurd he hn, fun _ => hid⟩
  · exact ⟨fun _ => hid, fun he => absurd he hne⟩

/-- Witness for the amended C6 at a one-answer input with a nonempty
choice list. -/
theorem review_id_assignment_witness :
    reviewsA.map (fun r => r.reviewId) =
      [some ("review-" ++ gen_hash (ansA.answerId ++ sortedDictStr (reviewerSpecDict da0)))] := by
  have h := review_id_assignment da0 "custom" false false [] [ansA] 0 reviewsA rfl
  have hE : reviewsA = [revA] := rfl
  rw [hE] at h ⊢
  rcases h with _ | ⟨⟨h1, _⟩, _⟩
  rw [List.map_cons, List.map_nil, h1 (by simp [ansA])]

theorem forall₂_mem_right {α β : Type} {R : α → β → Prop} :
    ∀ {l₁ : List α} {l₂ : List β}, List.Forall₂ R l₁ l₂ → ∀ b ∈ l₂, ∃ a ∈ l₁, R a b := by
  intro l₁ l₂ h
  induction h with
  | nil => intro b hb; exact absurd hb (by simp)
  | cons hab htl ih =>
    intro b hb
    rcases List.mem_cons.mp hb with rfl | hb
    · exact ⟨_, List.mem_cons_self _ _, hab⟩
    · obtain ⟨a, ha, har⟩ := ih b hb
      exact ⟨a, List.mem_cons_of_mem _ ha, har⟩

theorem get_reviews_ok_invariant (da : DataAdapter) (et : String) (uc fe : Bool)
    (file : List Review) (answers : List Answer) (now : Nat) (rs : List Review)
    (h : (get_reviews da et uc fe file answers now).result = .ok rs) :
    ∀ r ∈ rs, r.reviewed = true →
      r.choices ≠ [] ∧ ∀ c ∈ r.choices, c.review.isSome = true := by
  have h2 := (get_reviews_ok_spec da et uc fe file answers now rs h).2
  intro r hr hrev
  obtain ⟨a, _, har⟩ := forall₂_mem_right h2 r hr
  rcases get_review_inv da et a (ridOf da a) (reviewerSpecDict da) now r har with
    ⟨_, hrev', _, _⟩ | ⟨hne, cs', hcs, _, _, hch⟩
  · rw [hrev'] at hrev; exact absurd hrev (by simp)
  · obtain ⟨hl, hall⟩ := reviewChoices_spec da et a.rawInput a.choices cs' hcs
    constructor
    · rw [hch]
      intro hnil
      rw [hnil] at hl
      exact hne (List.length_eq_zero.mp hl.symm)
    · rw [hch]
      exact hall

theorem collect_isSome (rs : List Review)
    (h : ∀ r ∈ rs, r.reviewed = true →
      r.choices ≠ [] ∧ ∀ c ∈ r.choices, c.review.isSome = true) :
    (collectResultsW rs).1.isSome = true := by
  induction rs with
  | nil => rfl
  | cons r rs ih =>
    have ihr := ih (fun x hx => h x (List.mem_cons_of_mem _ hx))
    by_cases hr : r.reviewed = true
    · obtain ⟨hne, hall⟩ := h r (List.mem_cons_self _ _) hr
      rcases hc : r.choices.head? with _ | c
      · rw [List.head?_eq_none_iff] at hc
        exact absurd hc hne
      · have hcm : c ∈ r.choices := List.mem_of_mem_head? hc
        rcases hv : c.review with _ | v
        · have := hall c hcm
          rw [hv] at this
          exact absurd this (by simp)
        · rcases hl : (collectResultsW rs).1 with _ | l
          · rw [hl] at ihr; exact absurd ihr (by simp)
          · simp only [collectResultsW, if_pos hr, hc, hv, hl, Option.map_some']
            rfl
    · simp only [collectResultsW, if_neg hr]
      exact ihr

theorem collect_all_reviewed : ∀ rs : List Review,
    (∀ r ∈ rs, r.reviewed = true ∧ r.choices ≠ [] ∧
      ∀ c ∈ r.choices, c.review.isSome = true) →
    ∃ l, collectResultsW rs = (some l, 0) ∧ l.length = rs.length := by
  intro rs
  induction rs with
  | nil => intro _; exact ⟨[], rfl, rfl⟩
  | cons r rs ih =>
    intro h
    obtain ⟨hrev, hne, hall⟩ := h r (List.mem_cons_self _ _)
    obtain ⟨l, hl, hlen⟩ := ih (fun x hx => h x (List.mem_cons_of_mem _ hx))
    rcases hc : r.choices.head? with _ | c
    · rw [List.head?_eq_none_iff] at hc
      exact absurd hc hne
    · have hcm : c ∈ r.choices := List.mem_of_mem_head? hc
      rcases hv : c.review with _ | v
      · have := hall c hcm
        rw [hv] at this
        exact absurd this (by simp)
      · refine ⟨v.result :: l, ?_, by simp [hlen]⟩
        simp only [collectResultsW, if_pos hrev, hc, hv, hl, Option.map_some']

theorem collectResultsW_filter : ∀ rl : List Review,
    (collectResultsW rl).1 = (collectResultsW (rl.filter (fun r => r.reviewed))).1 ∧
    (collectResultsW rl).2 = (rl.filter (fun r => !r.reviewed)).length := by
  intro rl
  induction rl with
  | nil => exact ⟨rfl, rfl⟩
  | cons r rs ih =>
    by_cases hr : r.reviewed = true
    · have hf1 : (r :: rs).filter (fun x => x.reviewed) =
          r :: rs.filter (fun x => x.reviewed) := List.filter_cons_of_pos hr
      have hf2 : (r :: rs).filter (fun x => !x.reviewed) =
          rs.filter (fun x => !x.reviewed) := List.filter_cons_of_neg (by simp [hr])
      rcases hc : r.choices.head? with _ | c
      · constructor
        · rw [hf1]
          simp only [collectResultsW, if_pos hr, hc]
        · rw [hf2, ← ih.2]
          simp only [collectResultsW, if_pos hr, hc]
      · rcases hv : c.review with _ | v
        · constructor
          · rw [hf1]
            simp only [collectResultsW, if_pos hr, hc, hv]
          · rw [hf2, ← ih.2]
            simp only [collectResultsW, if_pos hr, hc, hv]
        · constructor
          · rw [hf1]
            simp only [collectResultsW, if_pos hr, hc, hv]
            rw [ih.1]
          · rw [hf2, ← ih.2]
            simp only [collectResultsW, if_pos hr, hc, hv]
    · have hrf : r.reviewed = false := by
        cases hx : r.reviewed
        · rfl
        · exact absurd hx hr
      have hf1 : (r :: rs).filter (fun x => x.reviewed) =
          rs.filter (fun x => x.reviewed) := List.filter_cons_of_neg (by simp [hrf])
      have hf2 : (r :: rs).filter (fun x => !x.reviewed) =
          r :: rs.filter (fun x => !x.reviewed) := List.filter_cons_of_pos (by simp [hrf])
      constructor
      · rw [hf1, ← ih.1]
        simp only [collectResultsW, if_neg hr]
      · rw [hf2, List.length_cons, ← ih.2]
        simp only [collectResultsW, if_neg hr]

/-- Claim C4: an empty-choice answer yields a `reviewed=false` review with
no verdicts instead of failing; `compute_metrics` passes only the
`reviewed=true` reviews' verdicts to the metric function, logging one
warning per skipped review; and an answer list whose answers all have
choices yields `reviewed=true` reviews that all contribute. -/
theorem empty_choice_review_skipped (da : DataAdapter) (et : String) (a : Answer)
    (rid : String) (spec : Dict) (now : Nat) (uc fe : Bool) (fileR : List Review)
    (answers : List Answer) (rs : List Review) :
    (a.choices = [] →
      ∃ r, _get_review da et a rid spec now = some r ∧
        r.reviewed = false ∧ r.choices = []) ∧
    (∀ rl : List Review,
      compute_metrics da rl =
        ((collectResultsW (rl.filter (fun r => r.reviewed))).1).map da.compute_metric ∧
      compute_metrics_warns rl = (rl.filter (fun r => !r.reviewed)).length) ∧
    ((∀ x ∈ answers, x.choices ≠ []) →
      (get_reviews da et uc fe fileR answers now).result = .ok rs →
      (∀ r ∈ rs, r.reviewed = true) ∧
      ∃ l, (collectResultsW rs).1 = some l ∧ l.length = rs.length ∧
        compute_metrics_warns rs = 0) := by
  refine ⟨?_, ?_, ?_⟩
  · intro he
    rw [_get_review, he]
    simp only [List.isEmpty_nil, if_true]
    exact ⟨_, rfl, rfl, rfl⟩
  · intro rl
    exact ⟨by rw [compute_metrics, (collectResultsW_filter rl).1],
      (collectResultsW_filter rl).2⟩
  · intro hall hok
    have h2 := (get_reviews_ok_spec da et uc fe fileR answers now rs hok).2
    have hrev : ∀ r ∈ rs, r.reviewed = true := by
      intro r hr
      obtain ⟨x, hx, hxr⟩ := forall₂_mem_right h2 r hr
      rcases get_review_inv da et x (ridOf da x) (reviewerSpecDict da) now r hxr with
        ⟨he, _, _, _⟩ | ⟨_, cs', _, hrt, _, _⟩
      · exact absurd he (hall x hx)
      · exact hrt
    have hinv := get_reviews_ok_invariant da et uc fe fileR answers now rs hok
    obtain ⟨l, hl, hlen⟩ := collect_all_reviewed rs (fun r hr =>
      ⟨hrev r hr, (hinv r hr (hrev r hr)).1, (hinv r hr (hrev r hr)).2⟩)
    refine ⟨hrev, l, ?_, hlen, ?_⟩
    · rw [hl]
    · rw [compute_metrics_warns, hl]

/-- Witness for C4: reviewing a two-answer subset whose answers both have
choices produces reviews that all contribute and no skip warnings. -/
theorem empty_choice_review_skipped_witness : compute_metrics_warns reviews2 = 0 := by
  obtain ⟨_, l, _, _, hw⟩ :=
    (empty_choice_review_skipped da0 "custom" ansEmpty "rid" [] 0 false false []
      [ansA, ansB] reviews2).2.2 (by simp [ansA, ansB]) rfl
  exact hw

/-- Claim C10: on any review list produced by `get_reviews`, every
`reviewed=true` review has a nonempty choice list whose choices all carry
an embedded verdict, so the `choices[0][REVIEW][RESULT]` access of
`compute_metrics` is always defined. -/
theorem compute_metrics_safe (da : DataAdapter) (et : String) (uc fe : Bool)
    (fileR : List Review) (answers : List Answer) (now : Nat) (rs : List Review)
    (h : (get_reviews da et uc fe fileR answers now).result = .ok rs) :
    (∀ r ∈ rs, r.reviewed = true →
      r.choices ≠ [] ∧ ∀ c ∈ r.choices, c.review.isSome = true) ∧
    (compute_metrics da rs).isSome = true := by
  have hinv := get_reviews_ok_invariant da et uc fe fileR answers now rs h
  refine ⟨hinv, ?_⟩
  rw [compute_metrics]
  rcases hm : (collectResultsW rs).1 with _ | l
  · have := collect_isSome rs hinv
    rw [hm] at this
    exact absurd this (by simp)
  · rfl

/-- Witness for C10 on the three-answer subset with one empty-choice
answer. -/
theorem compute_metrics_safe_witness : (compute_metrics da0 reviews3).isSome = true :=
  (compute_metrics_safe da0 "custom" false false [] [ansA, ansEmpty, ansB] 0 reviews3 rfl).2

/-- Counterexample to C5 as stated: with one empty-choice answer among
three, the accumulated per-subset count is 3 (the whole review list), not
the 2 reviews whose verdicts reached the metric function. -/
theorem subset_entry_cex :
    (subset_score_entry da0 reviews3).map Prod.snd = some 3 ∧
    (reviews3.filter (fun r => r.reviewed)).length = 2 := ⟨rfl, rfl⟩

/-- Claim C5 (amended): the per-subset entry accumulated for report
generation pairs the adapter-computed metric score with the length of the
whole review list — one review per answer, counting `reviewed=false`
reviews too (so a subset with one empty-choice answer among three has
count 3). -/
theorem subset_entry_counts_all (da : DataAdapter) (et : String) (uc fe : Bool)
    (fileR : List Review) (answers : List Answer) (now : Nat) (rs : List Review)
    (h : (get_reviews da et uc fe fileR answers now).result = .ok rs) :
    rs.length = answers.length ∧
    ∃ m, subset_score_entry da rs = some (m, answers.length) := by
  have hlen : answers.length = rs.length :=
    ((get_reviews_ok_spec da et uc fe fileR answers now rs h).2).length_eq
  have hinv := get_reviews_ok_invariant da et uc fe fileR answers now rs h
  have hs := collect_isSome rs hinv
  rcases hm : (collectResultsW rs).1 with _ | l
  · rw [hm] at hs
    exact absurd hs (by simp)
  · refine ⟨hlen.symm, da.compute_metric l, ?_⟩
    rw [hlen, subset_score_entry, compute_metrics, hm]
    rfl

/-- Witness for the amended C5: three answers, three accumulated reviews. -/
theorem subset_entry_counts_all_witness : reviews3.length = 3 := by
  have h :=
    (subset_entry_counts_all da0 "custom" false false [] [ansA, ansEmpty, ansB] 0 reviews3 rfl).1
  simpa using h

theorem take_set_of_le {α : Type} (l : List α) (i : Nat) (x : α) (n : Nat) (h : n ≤ i) :
    (l.set i x).take n = l.take n := by
  rw [List.set_take, List.set_eq_of_length_le]
  rw [List.length_take]
  exact le_trans (Nat.min_le_left _ _) h

theorem heapExt_refl (h : Heap) : HeapExt h h := ⟨le_refl _, List.take_length h⟩

theorem heapExt_trans {h1 h2 h3 : Heap} (e12 : HeapExt h1 h2) (e23 : HeapExt h2 h3) :
    HeapExt h1 h3 := by
  obtain ⟨l12, t12⟩ := e12
  obtain ⟨l23, t23⟩ := e23
  refine ⟨le_trans l12 l23, ?_⟩
  calc h3.take h1.length
      = (h3.take h2.length).take h1.length := by
        rw [List.take_take, Nat.min_eq_left l12]
    _ = h2.take h1.length := by rw [t23]
    _ = h1 := t12

theorem heapExt_append (h t : Heap) : HeapExt h (h ++ t) :=
  ⟨by simp, List.take_left h t⟩

theorem heapExt_set {h h' : Heap} (e : HeapExt h h') (i : Nat) (hi : h.length ≤ i)
    (x : HObj) : HeapExt h (h'.set i x) :=
  ⟨by rw [List.length_set]; exact e.1,
   by rw [take_set_of_le _ _ _ _ hi]; exact e.2⟩

theorem copyChoices_spec (orig : Heap) :
    ∀ (as : List Nat) (h : Heap),
      (∃ t, (copyChoices orig as h).1 = h ++ t) ∧
      ∀ x ∈ (copyChoices orig as h).2, h.length ≤ x := by
  intro as
  induction as with
  | nil =>
    intro h
    exact ⟨⟨[], by simp [copyChoices]⟩, by simp [copyChoices]⟩
  | cons a as ih =>
    intro h
    constructor
    · obtain ⟨t, ht⟩ := (ih (h ++ [heapGet orig a])).1
      refine ⟨[heapGet orig a] ++ t, ?_⟩
      show (copyChoices orig as (h ++ [heapGet orig a])).1 = _
      rw [ht, List.append_assoc]
    · intro x hx
      have hx' : x ∈ h.length :: (copyChoices orig as (h ++ [heapGet orig a])).2 := hx
      rcases List.mem_cons.mp hx' with rfl | hx''
      · exact le_refl _
      · have h2 := (ih (h ++ [heapGet orig a])).2 x hx''
        rw [List.length_append] at h2
        omega

theorem heapGet_append_length (l : Heap) (x : HObj) : heapGet (l ++ [x]) l.length = x := by
  rw [heapGet, List.getD, List.get?_eq_getElem?, List.getElem?_concat_length]
  rfl

theorem deepcopy_spec (h : Heap) (a : Nat) :
    HeapExt h (deepcopyAnswer h a).1 ∧
    h.length ≤ (deepcopyAnswer h a).2 ∧
    ∀ f cs, heapGet (deepcopyAnswer h a).1 (deepcopyAnswer h a).2 = .answerObj f cs →
      ∀ x ∈ cs, h.length ≤ x := by
  rcases hg : heapGet h a with ⟨f, cs⟩ | ⟨m, r⟩
  · obtain ⟨⟨t, ht⟩, hall⟩ := copyChoices_spec h cs h
    have h1 : (deepcopyAnswer h a).1 =
        (copyChoices h cs h).1 ++ [.answerObj f (copyChoices h cs h).2] := by
      simp only [deepcopyAnswer, hg]
    have h2 : (deepcopyAnswer h a).2 = (copyChoices h cs h).1.length := by
      simp only [deepcopyAnswer, hg]
    refine ⟨?_, ?_, ?_⟩
    · rw [h1, ht, List.append_assoc]
      exact heapExt_append h _
    · rw [h2, ht, List.length_append]
      omega
    · intro f' cs' hget
      rw [h1, h2, heapGet_append_length] at hget
      injection hget with hf hcs
      subst hcs
      exact hall
  · have h1 : (deepcopyAnswer h a).1 = h ++ [.choiceObj m r] := by
      simp only [deepcopyAnswer, hg]
    have h2 : (deepcopyAnswer h a).2 = h.length := by
      simp only [deepcopyAnswer, hg]
    refine ⟨?_, ?_, ?_⟩
    · rw [h1]; exact heapExt_append h _
    · rw [h2]
    · intro f' cs' hget
      rw [h1, h2, heapGet_append_length] at hget
      exact absurd hget (by simp)

theorem reviewChoicesH_frame (da : DataAdapter) (et : String) (raw : Dict) :
    ∀ (as : List Nat) (h : Heap) (n : Nat), (∀ x ∈ as, n ≤ x) →
      (reviewChoicesH da et raw as h).1.take n = h.take n ∧
      (reviewChoicesH da et raw as h).1.length = h.length := by
  intro as
  induction as with
  | nil => intro h n _; exact ⟨rfl, rfl⟩
  | cons a as ih =>
    intro h n hall
    rcases hg : heapGet h a with ⟨f, cs⟩ | ⟨m, r⟩
    · simp only [reviewChoicesH, hg]
      exact ⟨trivial, trivial⟩
    · rcases hc : dictGet m CONTENT with _ | content
      · simp only [reviewChoicesH, hg, hc]
        exact ⟨trivial, trivial⟩
      · simp only [reviewChoicesH, hg, hc]
        have ha : n ≤ a := hall a (List.mem_cons_self _ _)
        have hrec := ih
          (h.set a (.choiceObj m (some ⟨da.get_gold_answer raw,
            da.parse_pred_result content raw et,
            da.matchFn (da.get_gold_answer raw) (da.parse_pred_result content raw et)⟩)))
          n (fun x hx => hall x (List.mem_cons_of_mem _ hx))
        refine ⟨?_, ?_⟩
        · rw [hrec.1, take_set_of_le _ _ _ _ ha]
        · rw [hrec.2, List.length_set]

theorem getReviewH_ext (da : DataAdapter) (et : String) (rid : String) (spec : Dict)
    (now : Nat) (h : Heap) (a : Nat) :
    HeapExt h (getReviewH da et rid spec now h a).1 := by
  obtain ⟨hext, hroot, hcs⟩ := deepcopy_spec h a
  rcases hg : heapGet (deepcopyAnswer h a).1 (deepcopyAnswer h a).2 with ⟨f, cs⟩ | ⟨m, r⟩
  · by_cases hemp : cs.isEmpty
    · simp only [getReviewH, hg, hemp, if_true]
      exact heapExt_set hext _ hroot _
    · simp only [getReviewH, hg, hemp, if_false]
      have hframe := reviewChoicesH_frame da et f.rawInput cs (deepcopyAnswer h a).1
        h.length (hcs f cs hg)
      have hext2 : HeapExt h (reviewChoicesH da et f.rawInput cs (deepcopyAnswer h a).1).1 := by
        refine ⟨?_, ?_⟩
        · rw [hframe.2]; exact hext.1
        · rw [hframe.1]; exact hext.2
      rcases hrc : reviewChoicesH da et f.rawInput cs (deepcopyAnswer h a).1 with ⟨h2, b⟩
      rw [hrc] at hext2
      cases b
      · simpa using hext2
      · simp only
        exact heapExt_set hext2 _ hroot _
  · simp only [getReviewH, hg]
    exact hext

theorem getReviewsH_ext (da : DataAdapter) (et : String) (now : Nat) :
    ∀ (addrs : List Nat) (h : Heap), HeapExt h (getReviewsH da et now addrs h).1 := by
  intro addrs
  induction addrs with
  | nil => intro h; exact heapExt_refl h
  | cons a as ih =>
    intro h
    have he := getReviewH_ext da et (ridOfH da h a) (reviewerSpecDict da) now h a
    rcases hg : getReviewH da et (ridOfH da h a) (reviewerSpecDict da) now h a with ⟨h1, ro⟩
    rw [hg] at he
    cases ro
    · simp only [getReviewsH, hg]
      exact he
    · simp only [getReviewsH, hg]
      exact heapExt_trans he (ih h1)

/-- Claim C9: `get_reviews` never mutates the input answer objects: each
review is built on a deep copy, so on the heap every address that existed
before the call still holds exactly its old object afterwards. -/
theorem get_reviews_no_input_mutation (da : DataAdapter) (et : String) (now : Nat)
    (addrs : List Nat) (h : Heap) :
    ((getReviewsH da et now addrs h).1).take h.length = h :=
  (getReviewsH_ext da et now addrs h).2

end EvalscopeModel
